import Mathlib

/-!
Verification of the contact/notes manager (record.py, assistant.py).

Modelling conventions used throughout this development:

* Python strings are modelled as `List Char`, with the character classes
  (digits, ASCII letters) read at their ASCII meaning, which is the
  character domain the specification discusses.
* Python `datetime.date` values are modelled by `PyDate` (year/month/day
  triples); `date.toordinal` is `PyDate.toOrdinal` (proleptic Gregorian
  day count, Jan 1 of year 1 = day 1).  Comparison and subtraction of
  dates in the source are modelled through ordinals, which agrees with
  Python on all valid dates.
* `date.replace(year=y)` raises `ValueError` when the resulting
  month/day does not exist in year `y` (e.g. Feb 29 of a non-leap
  year); it is modelled by `replaceYear`, returning `Option PyDate`.
* Raised exceptions are modelled with `Except`/`Option` results; for a
  method that mutates an object, the model returns the post-state, the
  pre-state being returned unchanged when the exception fires before
  the mutation in the source.
-/

namespace CBA

/-! ### Characters and small string helpers -/

/-- Numeric value of an ASCII decimal digit; `10` for any other character. -/
def charVal (c : Char) : Nat :=
  if c = '0' then 0 else if c = '1' then 1 else if c = '2' then 2
  else if c = '3' then 3 else if c = '4' then 4 else if c = '5' then 5
  else if c = '6' then 6 else if c = '7' then 7 else if c = '8' then 8
  else if c = '9' then 9 else 10

/-- `str.isdigit` at the ASCII reading: the character is one of 0-9. -/
def isDigitChar (c : Char) : Bool :=
  charVal c < 10

/-- The ASCII digit character for `k < 10` (and `'0'` otherwise). -/
def digitChar (k : Nat) : Char :=
  if k = 1 then '1' else if k = 2 then '2' else if k = 3 then '3'
  else if k = 4 then '4' else if k = 5 then '5' else if k = 6 then '6'
  else if k = 7 then '7' else if k = 8 then '8' else if k = 9 then '9'
  else '0'

/-- ASCII letter test (the `[a-zA-Z]` character class). -/
def isAsciiAlpha (c : Char) : Bool :=
  ('a' ≤ c && c ≤ 'z') || ('A' ≤ c && c ≤ 'Z')

/-- `str.lower`, character by character, at the ASCII reading. -/
def lowerChars (s : List Char) : List Char :=
  s.map Char.toLower

/-- Does `hay` start with `needle`? -/
def listStartsWith : List Char → List Char → Bool
  | [], _ => true
  | _ :: _, [] => false
  | a :: as, b :: bs => a = b && listStartsWith as bs

/-- Python substring test `needle in hay`. -/
def listSub (needle : List Char) : List Char → Bool
  | [] => needle.isEmpty
  | c :: rest => listStartsWith needle (c :: rest) || listSub needle rest

/-! ### Dates -/

/-- Gregorian leap-year rule, as in Python's `calendar`/`datetime`. -/
def isLeapYear (y : Nat) : Bool :=
  (y % 4 = 0 && y % 100 ≠ 0) || y % 400 = 0

/-- Number of days of month `m` in year `y` (months are 1-based). -/
def daysInMonth (y m : Nat) : Nat :=
  if m = 2 then (if isLeapYear y then 29 else 28)
  else if m = 4 ∨ m = 6 ∨ m = 9 ∨ m = 11 then 30
  else 31

/-- The bounds `datetime.date(y, m, d)` enforces before constructing a date. -/
def isValidYMD (y m d : Nat) : Bool :=
  1 ≤ y && y ≤ 9999 && 1 ≤ m && m ≤ 12 && 1 ≤ d && d ≤ daysInMonth y m

/-- Model of `datetime.date`: a year/month/day triple. -/
structure PyDate where
  year : Nat
  month : Nat
  day : Nat
deriving DecidableEq

/-- The date satisfies `datetime.date`'s construction bounds. -/
def isValidDate (d : PyDate) : Bool :=
  isValidYMD d.year d.month d.day

/-- `datetime.date(y, m, d)`: `none` models the raised `ValueError`. -/
def pyDateNew (y m d : Nat) : Option PyDate :=
  if isValidYMD y m d then some ⟨y, m, d⟩ else none

/-- Days in the years strictly before year `y` (`y ≥ 1`). -/
def daysBeforeYear (y : Nat) : Nat :=
  (y - 1) * 365 + (y - 1) / 4 - (y - 1) / 100 + (y - 1) / 400

/-- Days in the months of year `y` strictly before month `m`. -/
def daysBeforeMonth (y m : Nat) : Nat :=
  (List.range (m - 1)).foldl (fun acc i => acc + daysInMonth y (i + 1)) 0

/-- `date.toordinal`: day count from the proleptic Gregorian epoch,
with Jan 1 of year 1 mapped to 1. -/
def PyDate.toOrdinal (d : PyDate) : Nat :=
  daysBeforeYear d.year + daysBeforeMonth d.year d.month + d.day

/-- `date.replace(year := y)`: keeps month and day, raises (`none`)
when the month/day does not exist in the target year. -/
def replaceYear (d : PyDate) (y : Nat) : Option PyDate :=
  if isValidYMD y d.month d.day then some ⟨y, d.month, d.day⟩ else none

/-! ### Field validators (record.py) -/

/-- The `ValueError` message of `Phone.value`. -/
def phoneErr : String :=
  "\x1b[91mThe phone number should be digits only and have 10 symbols.\x1b[0m"

/-- `Phone(value)` / the `Phone.value` setter (record.py:76-90): accepts
exactly 10 ASCII digits, raising `ValueError` otherwise.  The stored value
is the string itself. -/
def phoneNew (value : List Char) : Except String (List Char) :=
  if value.length = 10 && value.all isDigitChar then .ok value
  else .error phoneErr

/-- Split a string into its `'.'`-separated parts (so that a strptime
format `"%Y.%m.%d"` corresponds to a three-part split with each part
matched by the respective directive's digit pattern). -/
def splitDots : List Char → List (List Char)
  | [] => [[]]
  | c :: rest =>
    if c = '.' then [] :: splitDots rest
    else
      match splitDots rest with
      | [] => [[c]]
      | p :: ps => (c :: p) :: ps

/-- Rejoin `'.'`-separated parts; left inverse of `splitDots`. -/
def joinDots : List (List Char) → List Char
  | [] => []
  | [p] => p
  | p :: ps => p ++ '.' :: joinDots ps

/-- The `%Y` directive of `strptime`: exactly four digits. -/
def isYear4 (l : List Char) : Bool :=
  l.length = 4 && l.all isDigitChar

/-- Decimal value of a digit string. -/
def digitsToNat (l : List Char) : Nat :=
  l.foldl (fun acc c => acc * 10 + charVal c) 0

/-- The `%m` directive of `strptime`, whose pattern is
`1[0-2]|0[1-9]|[1-9]`: one or two digits denoting a month 1..12, the
leading zero optional.  Returns the month value on a match. -/
def monthPat : List Char → Option Nat
  | [c] => if 1 ≤ charVal c && charVal c ≤ 9 then some (charVal c) else none
  | [c1, c2] =>
    if c1 = '1' && charVal c2 ≤ 2 then some (10 + charVal c2)
    else if c1 = '0' && 1 ≤ charVal c2 && charVal c2 ≤ 9 then some (charVal c2)
    else none
  | _ => none

/-- The `%d` directive of `strptime`, whose pattern is
`3[01]|[12]\d|0[1-9]|[1-9]`: one or two digits denoting a day 1..31, the
leading zero optional.  Returns the day value on a match. -/
def dayPat : List Char → Option Nat
  | [c] => if 1 ≤ charVal c && charVal c ≤ 9 then some (charVal c) else none
  | [c1, c2] =>
    if c1 = '3' && charVal c2 ≤ 1 then some (30 + charVal c2)
    else if (c1 = '1' || c1 = '2') && charVal c2 ≤ 9 then
      some (charVal c1 * 10 + charVal c2)
    else if c1 = '0' && 1 ≤ charVal c2 && charVal c2 ≤ 9 then some (charVal c2)
    else none
  | _ => none

/-- `datetime.strptime(s, "%Y.%m.%d").date()`: the string must be exactly
year-part, dot, month-part, dot, day-part (the directives' patterns are
all-digit, so the split at dots is faithful), and the values must form a
constructible `datetime.date`.  `none` models the raised `ValueError`. -/
def strptimeYMD (s : List Char) : Option PyDate :=
  match splitDots s with
  | [ys, ms, ds] =>
    if isYear4 ys then
      match monthPat ms, dayPat ds with
      | some m, some d => pyDateNew (digitsToNat ys) m d
      | _, _ => none
    else none
  | _ => none

/-- Zero-padded two-digit decimal rendering (`%m`, `%d` of `strftime`). -/
def pad2 (n : Nat) : List Char :=
  [digitChar (n / 10 % 10), digitChar (n % 10)]

/-- Zero-padded four-digit decimal rendering (`%Y` of `strftime`, for the
years a `datetime.date` can hold). -/
def pad4 (n : Nat) : List Char :=
  [digitChar (n / 1000 % 10), digitChar (n / 100 % 10),
   digitChar (n / 10 % 10), digitChar (n % 10)]

/-- `date.strftime("%Y.%m.%d")`, the `Birthday.__str__` rendering. -/
def strftimeYMD (d : PyDate) : List Char :=
  pad4 d.year ++ '.' :: pad2 d.month ++ '.' :: pad2 d.day

/-- Model of the `Birthday` field (record.py:58-73): the setter parses the
string with `strptime` and stores the parsed date; a parse failure raises
`ValueError`. -/
def birthdayNew (s : List Char) : Option PyDate :=
  strptimeYMD s

/-- Modelled from the spec's words only, for comparison: the literal
reading of "the format `YYYY.MM.DD`", i.e. four digits, a dot, two
digits, a dot, two digits. -/
def matchesStrictYMD (s : List Char) : Bool :=
  match s with
  | [y1, y2, y3, y4, c1, m1, m2, c2, d1, d2] =>
    isDigitChar y1 && isDigitChar y2 && isDigitChar y3 && isDigitChar y4 &&
    c1 = '.' && isDigitChar m1 && isDigitChar m2 &&
    c2 = '.' && isDigitChar d1 && isDigitChar d2
  | _ => false

/-! ### Email (record.py:42-55)

The source accepts a string when
`re.search(r"^[a-zA-Z0-9._]+@[a-zA-Z0-9.-]+\.[a-zA-Z]{2,}$", value)`
matches.  With the `^` anchor the match must start at position 0; the
`$` anchor matches at the end of the string or just before a trailing
newline.  None of the character classes contains `'@'`, `'\n'`, and the
trailing class contains no `'.'`, so a match of the body against a
region is equivalent to the region decomposing as
`local ++ "@" ++ domain ++ "." ++ tld` with the class/length conditions
below; the checker finds the decomposition at the first `'@'` and the
last `'.'` after it. -/

/-- The `[a-zA-Z0-9._]` class (local part). -/
def isLocalChar (c : Char) : Bool :=
  isAsciiAlpha c || isDigitChar c || c = '.' || c = '_'

/-- The `[a-zA-Z0-9.-]` class (domain part). -/
def isDomainChar (c : Char) : Bool :=
  isAsciiAlpha c || isDigitChar c || c = '.' || c = '-'

/-- Split at the first occurrence of `c`: `s = L ++ c :: R` with `c ∉ L`. -/
def splitFirstAt (c : Char) : List Char → Option (List Char × List Char)
  | [] => none
  | a :: as =>
    if a = c then some ([], as)
    else
      match splitFirstAt c as with
      | none => none
      | some (l, r) => some (a :: l, r)

/-- Split at the last occurrence of `c`: `s = L ++ c :: R` with `c ∉ R`. -/
def splitLastAt (c : Char) (s : List Char) : Option (List Char × List Char) :=
  match splitFirstAt c s.reverse with
  | none => none
  | some (r, l) => some (l.reverse, r.reverse)

/-- Does `s` itself decompose as `local@domain.tld` per the regex body? -/
def emailCheck (s : List Char) : Bool :=
  match splitFirstAt '@' s with
  | none => false
  | some (l, rest) =>
    match splitLastAt '.' rest with
    | none => false
    | some (d, t) =>
      !l.isEmpty && l.all isLocalChar &&
      !d.isEmpty && d.all isDomainChar &&
      2 ≤ t.length && t.all isAsciiAlpha

/-- The declarative decomposition property the regex body denotes. -/
def emailShape (s : List Char) : Prop :=
  ∃ l d t : List Char,
    s = l ++ '@' :: (d ++ '.' :: t) ∧
    l ≠ [] ∧ l.all isLocalChar = true ∧
    d ≠ [] ∧ d.all isDomainChar = true ∧
    2 ≤ t.length ∧ t.all isAsciiAlpha = true

/-- Acceptance test of the `Email.value` setter: `re.search` with the
anchored pattern, including `$`'s tolerance of one trailing newline. -/
def pyEmailAccepts (s : List Char) : Bool :=
  emailCheck s ||
    (match s.getLast? with
     | some c => c = '\n' && emailCheck s.dropLast
     | none => false)

/-- The `ValueError` message of `Email.value`. -/
def emailErr : String := "\x1b[91mInvalid email format.\x1b[0m"

/-- `Email(value)` / the `Email.value` setter (record.py:42-55). -/
def emailNew (value : List Char) : Except String (List Char) :=
  if pyEmailAccepts value then .ok value else .error emailErr

/-! ### Contact records (record.py:93-223) -/

/-- A contact record: a name, an ordered phone list, and the optional
validated fields.  Phone values are stored as their digit strings. -/
structure Record where
  name : List Char
  phones : List (List Char)
  birthday : Option PyDate
  email : Option (List Char)
  address : Option (List Char)
deriving DecidableEq

/-- Result of `Record.days_to_birthday` (record.py:199-217): `None`,
the string `"Birthday today"`, a day count, or a raised `ValueError`
(from `date.replace` on a Feb 29 birthday whose target year is not a
leap year). -/
inductive DaysResult where
  | noBirthday
  | birthdayToday
  | days (n : Int)
  | valueError
deriving DecidableEq

/-- `Record.days_to_birthday` (record.py:199-217), as a function of
today's date and the stored birthday.  `birthday_date` is the birthday
with the year replaced by the current year; if it equals today the
distinguished result is returned, if it is on or before yesterday the
year is advanced, and the day difference is returned. -/
def days_to_birthday (today : PyDate) (birthday : Option PyDate) : DaysResult :=
  match birthday with
  | none => .noBirthday
  | some b =>
    match replaceYear b today.year with
    | none => .valueError
    | some bd =>
      if today = bd then .birthdayToday
      else if (bd.toOrdinal : Int) ≤ (today.toOrdinal : Int) - 1 then
        match replaceYear bd (today.year + 1) with
        | none => .valueError
        | some bd2 => .days ((bd2.toOrdinal : Int) - (today.toOrdinal : Int))
      else .days ((bd.toOrdinal : Int) - (today.toOrdinal : Int))

/-- `Record.add_phone` (record.py:101-112): validate through `Phone`,
then append.  On a `ValueError` the record is returned unchanged, the
exception having fired before the append. -/
def add_phone (r : Record) (value : List Char) : Record × Except String Unit :=
  match phoneNew value with
  | .error e => (r, .error e)
  | .ok p => ({ r with phones := r.phones ++ [p] }, .ok ())

/-- Result of `Record.edit_phone`: the confirmation string case is
abstracted to `edited`, the `None` fall-through to `notFound`, a raised
`ValueError` from the setter's re-validation to `raised`. -/
inductive EditResult where
  | edited
  | notFound
  | raised (e : String)
deriving DecidableEq

/-- `Record.edit_phone` (record.py:166-182): walk the phone list; at the
first phone equal to `old_phone`, re-validate `new_phone` through the
`Phone.value` setter and overwrite in place (the setter raises before
assigning, so a failed validation leaves the list unchanged); later
entries are not visited.  With no match, `None` is returned. -/
def editPhonesGo (oldPhone newPhone : List Char) :
    List (List Char) → List (List Char) × EditResult
  | [] => ([], .notFound)
  | p :: ps =>
    if p = oldPhone then
      match phoneNew newPhone with
      | .error e => (p :: ps, .raised e)
      | .ok q => (q :: ps, .edited)
    else
      match editPhonesGo oldPhone newPhone ps with
      | (ps2, res) => (p :: ps2, res)

/-- `Record.edit_phone` at the record level. -/
def edit_phone (r : Record) (oldPhone newPhone : List Char) :
    Record × EditResult :=
  match editPhonesGo oldPhone newPhone r.phones with
  | (ps, res) => ({ r with phones := ps }, res)

/-! ### The address book (record.py:226-346) -/

/-- The `AddressBook` data: the dict `name -> Record`, modelled as an
association list in insertion order with unique keys. -/
def Book := List (List Char × Record)

/-- Exact-key lookup (`name in self.data` / `self.data[name]`). -/
def lookupKey : List (List Char × Record) → List Char → Option Record
  | [], _ => none
  | p :: rest, name => if p.1 = name then some p.2 else lookupKey rest name

/-- `dict.pop(name)`: drop the (unique) entry with the given key. -/
def removeKey : List (List Char × Record) → List Char → List (List Char × Record)
  | [], _ => []
  | p :: rest, name => if p.1 = name then rest else p :: removeKey rest name

/-- Result of `AddressBook.delete`: the two returned messages. -/
inductive DeleteResult where
  | deleted
  | notFound
deriving DecidableEq

/-- `AddressBook.delete` (record.py:280-294): pop the key when present,
report not-found otherwise.  Never raises. -/
def delete (book : List (List Char × Record)) (name : List Char) :
    List (List Char × Record) × DeleteResult :=
  if book.any (fun p => p.1 = name) then (removeKey book name, .deleted)
  else (book, .notFound)

/-- `str(rec)` (`Record.__str__`, record.py:219-223): the rendered text
interpolates `self.days_to_birthday()`, so rendering raises
`ValueError` exactly when that call does (a Feb 29 birthday whose year
replacement fails); every other fragment of the f-string — name, the
joined phones, the formatted birthday/email/address — is total.  The
rendered chunk is identified by the (key, record) pair it displays. -/
def strRec (today : PyDate) (name : List Char) (rec : Record) :
    Except Unit (List Char × Record) :=
  if days_to_birthday today rec.birthday = DaysResult.valueError then .error ()
  else .ok (name, rec)

/-- The chunks one record contributes to a completed `search`: one for
a case-insensitive name match, then one per phone containing the term
— the shape of what the appends of record.py:270-274 produce when none
of them raises. -/
def recordChunks (value name : List Char) (rec : Record) :
    List (List Char × Record) :=
  (if listSub (lowerChars value) (lowerChars name) then [(name, rec)] else []) ++
    (rec.phones.filter (fun p => listSub value p)).map (fun _ => (name, rec))

/-- Run consecutive `result += str(rec)` appends left to right, stopping
at the first raised `ValueError`. -/
def collectAppends : List (Except Unit (List Char × Record)) →
    Except Unit (List (List Char × Record))
  | [] => .ok []
  | .error e :: _ => .error e
  | .ok c :: rest =>
    match collectAppends rest with
    | .error e => .error e
    | .ok cs => .ok (c :: cs)

/-- The appends one record performs inside `search` (record.py:270-274):
one `str(rec)` evaluation per contributed chunk, each able to raise. -/
def recordMatchEntries (today : PyDate) (value name : List Char)
    (rec : Record) : Except Unit (List (List Char × Record)) :=
  collectAppends
    ((recordChunks value name rec).map (fun _ => strRec today name rec))

/-- All chunks `search` accumulates over the store, in iteration order,
propagating the first `ValueError` a `str(rec)` append raises. -/
def searchEntries (today : PyDate) (value : List Char) :
    List (List Char × Record) → Except Unit (List (List Char × Record))
  | [] => .ok []
  | (n, rec) :: rest =>
    match recordMatchEntries today value n rec with
    | .error e => .error e
    | .ok es =>
      match searchEntries today value rest with
      | .error e => .error e
      | .ok tail => .ok (es ++ tail)

/-- The chunk list of a completed search, in iteration order. -/
def searchChunks (value : List Char) :
    List (List Char × Record) → List (List Char × Record)
  | [] => []
  | (n, rec) :: rest => recordChunks value n rec ++ searchChunks value rest

/-- The completed outcomes of `AddressBook.search`: the usage message
for short terms, `None` when the accumulated string stays empty, else
the non-empty sequence of appended chunks (each chunk being non-empty
text, the accumulated string is empty exactly when no chunk was
appended). -/
inductive SearchResult where
  | tooShort
  | noMatch
  | found (entries : List (List Char × Record))
deriving DecidableEq

/-- `AddressBook.search` (record.py:256-278), as a function also of
today's date, which every `str(rec)` append consults through
`days_to_birthday`; the `ValueError` such an append can raise escapes
`search` and is modelled by `.error`.  The length guard returns before
any record is rendered. -/
def search (today : PyDate) (book : List (List Char × Record))
    (value : List Char) : Except Unit SearchResult :=
  if value.length < 3 then .ok .tooShort
  else
    match searchEntries today value book with
    | .error e => .error e
    | .ok [] => .ok .noMatch
    | .ok (e :: es) => .ok (.found (e :: es))

/-! ### Birthday window query (assistant.py:1155-1185) -/

/-- The anniversary date `birthday_in_given_days` computes for one
record: this year's anniversary, advanced to next year when strictly
before yesterday (`birth < date_today - timedelta(days=1)`).  `none`
models the `ValueError` raised by a failing `date.replace`. -/
def resolveBirth (today : PyDate) (b : PyDate) : Except Unit PyDate :=
  match replaceYear b today.year with
  | none => .error ()
  | some birth0 =>
    if (birth0.toOrdinal : Int) < (today.toOrdinal : Int) - 1 then
      match replaceYear birth0 (today.year + 1) with
      | none => .error ()
      | some birth1 => .ok birth1
    else .ok birth0

/-- The record loop of `birthday_in_given_days`: for every record with a
birthday, resolve the anniversary and collect the record's name when
`date_today <= birth <= date_today + timedelta(days=value)` (the
appended text renders the name, the stored birthday and
`days_to_birthday()`; membership is tracked by name). -/
def bigdGo (today : PyDate) (endOrd : Int) :
    List (List Char × Record) → Except Unit (List (List Char))
  | [] => .ok []
  | (n, rec) :: rest =>
    match rec.birthday with
    | none => bigdGo today endOrd rest
    | some b =>
      match resolveBirth today b with
      | .error e => .error e
      | .ok birth =>
        match bigdGo today endOrd rest with
        | .error e => .error e
        | .ok tail =>
          if (today.toOrdinal : Int) ≤ (birth.toOrdinal : Int) ∧
              (birth.toOrdinal : Int) ≤ endOrd then .ok (n :: tail)
          else .ok tail

/-- `BirthAssistant.birthday_in_given_days` (assistant.py:1155-1185):
`None` when no record falls in the window, else the collected list. -/
def birthday_in_given_days (today : PyDate) (book : List (List Char × Record))
    (value : Nat) : Except Unit (Option (List (List Char))) :=
  match bigdGo today ((today.toOrdinal : Int) + value) book with
  | .error e => .error e
  | .ok [] => .ok none
  | .ok (x :: xs) => .ok (some (x :: xs))

/-! ### Notes (record.py:349-354, assistant.py:1362-1410) -/

/-- A note: free content plus an ordered tag list. -/
structure Note where
  content : List Char
  tags : List (List Char)
deriving DecidableEq

/-- `NotesAssistant.edit_note_content` (assistant.py:1362-1379): every
note whose tag list contains `tag` gets the new content; the others are
kept as they are. -/
def edit_note_content (notes : List Note) (tag : List Char)
    (newContent : List Char) : List Note :=
  notes.map fun note =>
    if tag ∈ note.tags then { note with content := newContent } else note

/-- `NotesAssistant.delete_note_by_index` (assistant.py:1395-1410),
which despite its name deletes by tag: keep exactly the notes not
containing `tag`; the reported flag says whether the length changed,
i.e. whether anything was removed. -/
def delete_note_by_index (notes : List Note) (tag : List Char) :
    List Note × Bool :=
  let remaining := notes.filter fun note => decide (tag ∉ note.tags)
  (remaining, decide (remaining.length ≠ notes.length))

/-- Decidable equality for `Except` results, used to evaluate the model
on concrete inputs. -/
instance instDecEqExcept {ε α : Type} [DecidableEq ε] [DecidableEq α] :
    DecidableEq (Except ε α) := fun x y =>
  match x, y with
  | .error a, .error b =>
    if h : a = b then .isTrue (by rw [h])
    else .isFalse (fun hc => h (by injection hc))
  | .error _, .ok _ => .isFalse (fun hc => Except.noConfusion hc)
  | .ok _, .error _ => .isFalse (fun hc => Except.noConfusion hc)
  | .ok a, .ok b =>
    if h : a = b then .isTrue (by rw [h])
    else .isFalse (fun hc => h (by injection hc))

/-! ## Theorems -/

/-- The `Phone` validator succeeds, storing the string itself, on a
10-digit string. -/
theorem phoneNew_ok (s : List Char)
    (h : s.length = 10 ∧ s.all isDigitChar = true) :
    phoneNew s = .ok s := by
  simp [phoneNew, h.1, h.2]

/-- The `Phone` validator raises its `ValueError` on any other string. -/
theorem phoneNew_error (s : List Char)
    (h : ¬ (s.length = 10 ∧ s.all isDigitChar = true)) :
    phoneNew s = .error phoneErr := by
  have hcond : ¬ (decide (s.length = 10) && s.all isDigitChar) = true := by
    rcases Decidable.not_and_iff_or_not.mp h with h1 | h1 <;> simp [h1]
  simp [phoneNew, hcond]

/-- Claim C3: `Phone` construction from `s` succeeds exactly when `s` is
10 characters, all decimal digits; on success the stored value is `s`
itself (so it round-trips to the same string), and otherwise the
validator raises its `ValueError`. -/
theorem phone_c3 (s : List Char) :
    (phoneNew s = .ok s ↔ (s.length = 10 ∧ s.all isDigitChar = true)) ∧
    (¬ (s.length = 10 ∧ s.all isDigitChar = true) →
      phoneNew s = .error phoneErr) ∧
    (∀ t, phoneNew s = .ok t → t = s) := by
  by_cases h : s.length = 10 ∧ s.all isDigitChar = true
  · refine ⟨⟨fun _ => h, fun _ => phoneNew_ok s h⟩,
      fun hc => absurd h hc, fun t ht => ?_⟩
    rw [phoneNew_ok s h] at ht
    exact (Except.ok.inj ht).symm
  · refine ⟨⟨fun hok => ?_, fun hc => absurd hc h⟩,
      fun _ => phoneNew_error s h, fun t ht => ?_⟩
    · rw [phoneNew_error s h] at hok
      exact absurd hok (by simp)
    · rw [phoneNew_error s h] at ht
      exact absurd ht (by simp)

/-- Witness for C3 at concrete inputs: a valid 10-digit string is
accepted and stored unchanged; an 9-digit string is rejected with the
validator's error. -/
theorem phone_c3_witness :
    phoneNew ("0123456789").toList = .ok (("0123456789").toList) ∧
    phoneNew ("012345678").toList = .error phoneErr := by
  constructor
  · exact (phone_c3 ("0123456789").toList).1.mpr (by decide)
  · exact (phone_c3 ("012345678").toList).2.1 (by decide)

/-- Claim C8: `add_phone` validates the string and appends it at the end
of the phone list, without deduplicating (the success case applies to
every prior phone list, duplicates included); on a validation failure
the validator's error is surfaced and the record is unchanged. -/
theorem add_phone_c8 (r : Record) (v : List Char) :
    (v.length = 10 ∧ v.all isDigitChar = true →
      add_phone r v = ({ r with phones := r.phones ++ [v] }, .ok ())) ∧
    (¬ (v.length = 10 ∧ v.all isDigitChar = true) →
      add_phone r v = (r, .error phoneErr)) ∧
    (∀ e, phoneNew v = .error e → add_phone r v = (r, .error e)) := by
  refine ⟨fun h => ?_, fun h => ?_, fun e he => ?_⟩
  · simp [add_phone, phoneNew_ok v h]
  · simp [add_phone, phoneNew_error v h]
  · simp [add_phone, he]

/-- Witness for C8 at a concrete record: appending a duplicate of an
existing phone keeps both copies; an invalid string leaves the record
unchanged and surfaces the `Phone` error. -/
theorem add_phone_c8_witness :
    add_phone ⟨("A").toList, [("0123456789").toList], none, none, none⟩
        (("0123456789").toList) =
      (⟨("A").toList, [("0123456789").toList, ("0123456789").toList],
        none, none, none⟩, .ok ()) ∧
    add_phone ⟨("A").toList, [("0123456789").toList], none, none, none⟩
        (("12ab").toList) =
      (⟨("A").toList, [("0123456789").toList], none, none, none⟩,
        .error phoneErr) := by
  constructor
  · exact (add_phone_c8 _ _).1 (by decide)
  · exact (add_phone_c8 _ _).2.1 (by decide)

/-- The traversal of `edit_phone` raises the validator's error and keeps
the list unchanged whenever the old value occurs and the new value is
rejected by the `Phone` setter. -/
theorem editPhonesGo_raises (oldp newp : List Char) (e : String)
    (he : phoneNew newp = .error e) :
    ∀ ps : List (List Char), oldp ∈ ps →
      editPhonesGo oldp newp ps = (ps, .raised e) := by
  intro ps
  induction ps with
  | nil => intro h; cases h
  | cons p rest ih =>
    intro hmem
    by_cases hp : p = oldp
    · simp [editPhonesGo, hp, he]
    · have hrest : oldp ∈ rest := by
        rcases List.mem_cons.mp hmem with h1 | h1
        · exact absurd h1.symm hp
        · exact h1
      simp [editPhonesGo, hp, ih hrest]

/-- Claim C10: when the phone list contains `oldp` and `newp` is not 10
decimal digits, `edit_phone` surfaces the `Phone` validation error and
returns the record exactly as it was: no entry is lost or altered. -/
theorem edit_phone_c10 (r : Record) (oldp newp : List Char)
    (hmem : oldp ∈ r.phones)
    (hbad : ¬ (newp.length = 10 ∧ newp.all isDigitChar = true)) :
    edit_phone r oldp newp = (r, .raised phoneErr) := by
  have he := phoneNew_error newp hbad
  simp [edit_phone, editPhonesGo_raises oldp newp phoneErr he r.phones hmem]

/-- Witness for C10: editing the second of two phones to a malformed
value raises and leaves both phones in place. -/
theorem edit_phone_c10_witness :
    edit_phone ⟨("A").toList, [("0123456789").toList, ("5550001111").toList],
        none, none, none⟩ (("5550001111").toList) (("12ab").toList) =
      (⟨("A").toList, [("0123456789").toList, ("5550001111").toList],
        none, none, none⟩, .raised phoneErr) :=
  edit_phone_c10 _ _ _ (by decide) (by decide)

/-- The membership test `name in self.data` agrees with lookup. -/
theorem any_key_eq_isSome (book : List (List Char × Record)) (name : List Char) :
    (book.any fun p => p.1 = name) = (lookupKey book name).isSome := by
  induction book with
  | nil => rfl
  | cons p rest ih =>
    by_cases h : p.1 = name <;> simp [lookupKey, h, ih]

/-- A key that is absent looks up to `none`. -/
theorem lookupKey_eq_none_of_not_mem (book : List (List Char × Record))
    (name : List Char) (h : name ∉ book.map Prod.fst) :
    lookupKey book name = none := by
  induction book with
  | nil => rfl
  | cons p rest ih =>
    simp only [List.map_cons, List.mem_cons] at h
    push_neg at h
    have hp : ¬ p.1 = name := fun hc => h.1 hc.symm
    simp [lookupKey, hp, ih h.2]

/-- After popping `name` from a dict (unique keys), `name` is gone. -/
theorem lookupKey_removeKey_self (book : List (List Char × Record))
    (name : List Char) (hnodup : (book.map Prod.fst).Nodup) :
    lookupKey (removeKey book name) name = none := by
  induction book with
  | nil => rfl
  | cons p rest ih =>
    simp only [List.map_cons, List.nodup_cons] at hnodup
    by_cases h : p.1 = name
    · rw [removeKey]
      simp only [h, if_true]
      exact lookupKey_eq_none_of_not_mem rest name (h ▸ hnodup.1)
    · rw [removeKey]
      simp only [h, if_false, lookupKey]
      simp [h, ih hnodup.2]

/-- Popping `name` leaves every other key's binding unchanged. -/
theorem lookupKey_removeKey_other (book : List (List Char × Record))
    (name other : List Char) (hne : other ≠ name) :
    lookupKey (removeKey book name) other = lookupKey book other := by
  have hno : ¬ (name = other) := fun hc => hne hc.symm
  induction book with
  | nil => rfl
  | cons p rest ih =>
    by_cases h : p.1 = name
    · simp [removeKey, lookupKey, h, hno]
    · by_cases h2 : p.1 = other <;>
        simp [removeKey, lookupKey, h, h2, hne, ih]

/-- Claim C9: deleting an absent name reports not-found and leaves the
mapping untouched; deleting a present name (the keys of a dict being
unique) removes exactly that key — it is gone afterwards and every
other binding is unchanged — and reports success.  `delete` is a total
function, so it never raises. -/
theorem delete_c9 (book : List (List Char × Record)) (name : List Char) :
    (lookupKey book name = none → delete book name = (book, .notFound)) ∧
    ((book.map Prod.fst).Nodup → lookupKey book name ≠ none →
      delete book name = (removeKey book name, .deleted) ∧
      lookupKey (removeKey book name) name = none ∧
      ∀ other, other ≠ name →
        lookupKey (removeKey book name) other = lookupKey book other) := by
  constructor
  · intro h
    have : (book.any fun p => p.1 = name) = false := by
      rw [any_key_eq_isSome, h, Option.isSome_none]
    simp [delete, this]
  · intro hnodup hsome
    have : (book.any fun p => p.1 = name) = true := by
      rw [any_key_eq_isSome, Option.isSome_iff_ne_none]
      exact hsome
    refine ⟨by simp [delete, this], lookupKey_removeKey_self book name hnodup,
      fun other hne => lookupKey_removeKey_other book name other hne⟩

/-- Witness for C9 on a concrete two-entry store: deleting a missing
name changes nothing; deleting a present name pops exactly that key. -/
theorem delete_c9_witness :
    delete [(("A").toList, ⟨("A").toList, [], none, none, none⟩),
            (("B").toList, ⟨("B").toList, [], none, none, none⟩)]
        (("C").toList) =
      ([(("A").toList, ⟨("A").toList, [], none, none, none⟩),
        (("B").toList, ⟨("B").toList, [], none, none, none⟩)], .notFound) ∧
    delete [(("A").toList, ⟨("A").toList, [], none, none, none⟩),
            (("B").toList, ⟨("B").toList, [], none, none, none⟩)]
        (("A").toList) =
      (removeKey [(("A").toList, ⟨("A").toList, [], none, none, none⟩),
                  (("B").toList, ⟨("B").toList, [], none, none, none⟩)]
        (("A").toList), .deleted) := by
  constructor
  · exact (delete_c9 _ _).1 (by decide)
  · exact ((delete_c9 _ _).2 (by decide) (by decide)).1

/-- Claim C7: `edit_note_content` rewrites, position by position, the
content of exactly the notes whose tag list contains the tag (keeping
every tag list), and `delete_note_by_index` removes exactly the notes
whose tag list contains the tag — none survive, the others keep their
multiplicity — reporting whether anything was removed.  On a tag shared
by several notes this updates, resp. removes, all of them. -/
theorem notes_c7 (notes : List Note) (tag newContent : List Char) :
    (∀ i : Nat,
      ((edit_note_content notes tag newContent)[i]?).map Note.tags =
        (notes[i]?).map Note.tags ∧
      ((edit_note_content notes tag newContent)[i]?).map Note.content =
        (notes[i]?).map (fun note =>
          if tag ∈ note.tags then newContent else note.content)) ∧
    (∀ note ∈ (delete_note_by_index notes tag).1, tag ∉ note.tags) ∧
    (∀ note : Note, tag ∉ note.tags →
      (delete_note_by_index notes tag).1.count note = notes.count note) ∧
    ((delete_note_by_index notes tag).2 = true ↔
      ∃ note ∈ notes, tag ∈ note.tags) := by
  refine ⟨fun i => ?_, fun note hmem => ?_, fun note hnot => ?_, ?_⟩
  · unfold edit_note_content
    simp only [List.getElem?_map]
    constructor
    · cases notes[i]? with
      | none => simp
      | some note =>
        by_cases h : tag ∈ note.tags <;> simp [h]
    · cases notes[i]? with
      | none => simp
      | some note =>
        by_cases h : tag ∈ note.tags <;> simp [h]
  · have := List.of_mem_filter hmem
    simpa using this
  · unfold delete_note_by_index
    exact List.count_filter (by simpa using hnot)
  · unfold delete_note_by_index
    simp only [decide_eq_true_eq, ne_eq]
    have hle := List.length_filter_le
      (fun note => decide (tag ∉ note.tags)) notes
    constructor
    · intro hne
      have hlt : ((notes.filter fun note => decide (tag ∉ note.tags)).length
          < notes.length) := lt_of_le_of_ne hle hne
      rcases List.length_filter_lt_length_iff_exists.mp hlt with ⟨x, hx, hpx⟩
      exact ⟨x, hx, by simpa using hpx⟩
    · intro ⟨x, hx, hpx⟩
      have hlt : ((notes.filter fun note => decide (tag ∉ note.tags)).length
          < notes.length) :=
        List.length_filter_lt_length_iff_exists.mpr ⟨x, hx, by simpa using hpx⟩
      exact Nat.ne_of_lt hlt

/-- Witness for C7 on two notes sharing a tag: both contents are
rewritten by the edit, both notes disappear under the delete, and the
removal is reported. -/
theorem notes_c7_witness :
    ((edit_note_content
        [⟨("one").toList, [("t").toList]⟩, ⟨("two").toList, [("t").toList]⟩]
        (("t").toList) (("new").toList))[0]?).map Note.content =
      some (("new").toList) ∧
    ((edit_note_content
        [⟨("one").toList, [("t").toList]⟩, ⟨("two").toList, [("t").toList]⟩]
        (("t").toList) (("new").toList))[1]?).map Note.content =
      some (("new").toList) ∧
    (delete_note_by_index
        [⟨("one").toList, [("t").toList]⟩, ⟨("two").toList, [("t").toList]⟩]
        (("t").toList)).2 = true := by
  refine ⟨?_, ?_, ?_⟩
  · have h := (notes_c7
      [⟨("one").toList, [("t").toList]⟩, ⟨("two").toList, [("t").toList]⟩]
      (("t").toList) (("new").toList)).1 0
    rw [h.2]
    decide
  · have h := (notes_c7
      [⟨("one").toList, [("t").toList]⟩, ⟨("two").toList, [("t").toList]⟩]
      (("t").toList) (("new").toList)).1 1
    rw [h.2]
    decide
  · exact (notes_c7
      [⟨("one").toList, [("t").toList]⟩, ⟨("two").toList, [("t").toList]⟩]
      (("t").toList) (("new").toList)).2.2.2.mpr
      ⟨⟨("one").toList, [("t").toList]⟩, by decide, by decide⟩

/-- Every chunk one record contributes is that record under its key. -/
theorem recordChunks_eq (value n : List Char) (rec : Record) :
    ∀ e ∈ recordChunks value n rec, e = (n, rec) := by
  intro e he
  unfold recordChunks at he
  rcases List.mem_append.mp he with h | h
  · split at h
    · exact List.mem_singleton.mp h
    · cases h
  · rcases List.mem_map.mp h with ⟨x, _, hx⟩
    exact hx.symm

/-- Every chunk one record contributes carries that record's key. -/
theorem recordChunks_key (value n : List Char) (rec : Record) :
    ∀ e ∈ recordChunks value n rec, e.1 = n := by
  intro e he
  rw [recordChunks_eq value n rec e he]

/-- Mapping a constant-valued list to that constant is the identity. -/
theorem map_const_of_all_eq (c : List Char × Record) :
    ∀ l : List (List Char × Record), (∀ x ∈ l, x = c) →
      l.map (fun _ => c) = l := by
  intro l
  induction l with
  | nil => intro _; rfl
  | cons a as ih =>
    intro h
    rw [List.map_cons, ih (fun x hx => h x (List.mem_cons_of_mem _ hx)),
      h a (List.mem_cons_self _ _)]

/-- Sequencing appends that all succeed returns their chunks. -/
theorem collectAppends_ok (c : List Char × Record) :
    ∀ l : List (Except Unit (List Char × Record)),
      (∀ x ∈ l, x = Except.ok c) →
      collectAppends l = .ok (l.map (fun _ => c)) := by
  intro l
  induction l with
  | nil => intro _; rfl
  | cons x xs ih =>
    intro h
    have ih2 := ih (fun y hy => h y (List.mem_cons_of_mem _ hy))
    rw [h x (List.mem_cons_self _ _)]
    simp only [collectAppends, ih2, List.map_cons]

/-- Inversion of one record's appends: when they complete, the
contributed chunk list is exactly `recordChunks`. -/
theorem rme_ok (today : PyDate) (value n : List Char) (rec : Record)
    (es : List (List Char × Record))
    (h : recordMatchEntries today value n rec = .ok es) :
    es = recordChunks value n rec := by
  unfold recordMatchEntries at h
  by_cases hraise :
      days_to_birthday today rec.birthday = DaysResult.valueError
  · have hstr : strRec today n rec = .error () := by
      unfold strRec
      rw [if_pos hraise]
    rcases hch : recordChunks value n rec with _ | ⟨c, cs⟩
    · rw [hch] at h
      simp only [List.map_nil, collectAppends] at h
      injection h with h2
      exact h2.symm
    · rw [hch] at h
      simp only [List.map_cons, hstr] at h
      simp only [collectAppends] at h
      exact Except.noConfusion h
  · have hstr : strRec today n rec = .ok (n, rec) := by
      unfold strRec
      rw [if_neg hraise]
    have hall : ∀ x ∈ (recordChunks value n rec).map
        (fun _ => strRec today n rec), x = Except.ok (n, rec) := by
      intro x hx
      rcases List.mem_map.mp hx with ⟨y, _, hy⟩
      rw [← hy, hstr]
    rw [collectAppends_ok (n, rec) _ hall] at h
    injection h with h2
    rw [← h2, List.map_map]
    exact map_const_of_all_eq (n, rec) _ (recordChunks_eq value n rec)

/-- When the record's rendering does not raise, its appends complete
and yield its chunks. -/
theorem rme_ok_of_not_raise (today : PyDate) (value n : List Char)
    (rec : Record)
    (hraise : ¬ days_to_birthday today rec.birthday = DaysResult.valueError) :
    recordMatchEntries today value n rec =
      .ok (recordChunks value n rec) := by
  have hstr : strRec today n rec = .ok (n, rec) := by
    unfold strRec
    rw [if_neg hraise]
  have hall : ∀ x ∈ (recordChunks value n rec).map
      (fun _ => strRec today n rec), x = Except.ok (n, rec) := by
    intro x hx
    rcases List.mem_map.mp hx with ⟨y, _, hy⟩
    rw [← hy, hstr]
  unfold recordMatchEntries
  rw [collectAppends_ok (n, rec) _ hall, List.map_map]
  exact congrArg Except.ok
    (map_const_of_all_eq (n, rec) _ (recordChunks_eq value n rec))

/-- A record that matches nothing evaluates no `str(rec)` at all and
contributes nothing. -/
theorem rme_nomatch_ok (today : PyDate) (value n : List Char) (rec : Record)
    (hch : recordChunks value n rec = []) :
    recordMatchEntries today value n rec = .ok [] := by
  unfold recordMatchEntries
  rw [hch]
  rfl

/-- Inversion of the accumulation: when it completes, it is exactly the
chunk list. -/
theorem searchEntries_ok (today : PyDate) (value : List Char) :
    ∀ book : List (List Char × Record), ∀ es,
      searchEntries today value book = .ok es →
      es = searchChunks value book := by
  intro book
  induction book with
  | nil =>
    intro es h
    injection h with h2
    rw [← h2]
    rfl
  | cons p rest ih =>
    obtain ⟨n, rec⟩ := p
    intro es h
    rcases hr : recordMatchEntries today value n rec with e | es0
    · simp only [searchEntries, hr] at h
      exact Except.noConfusion h
    · simp only [searchEntries, hr] at h
      rcases htl : searchEntries today value rest with e | tail
      · simp only [htl] at h
        exact Except.noConfusion h
      · simp only [htl] at h
        injection h with h2
        rw [← h2, rme_ok today value n rec es0 hr, ih tail htl]
        rfl

/-- The accumulation completes whenever no matched record's rendering
raises (an unmatched record is never rendered). -/
theorem searchEntries_completes (today : PyDate) (value : List Char) :
    ∀ book : List (List Char × Record),
      (∀ p ∈ book, recordChunks value p.1 p.2 ≠ [] →
        ¬ days_to_birthday today p.2.birthday = DaysResult.valueError) →
      searchEntries today value book = .ok (searchChunks value book) := by
  intro book
  induction book with
  | nil => intro _; rfl
  | cons p rest ih =>
    obtain ⟨n, rec⟩ := p
    intro h
    have hhead := h (n, rec) (List.mem_cons_self _ _)
    have hrme : recordMatchEntries today value n rec =
        .ok (recordChunks value n rec) := by
      by_cases hch : recordChunks value n rec = []
      · rw [rme_nomatch_ok today value n rec hch, hch]
      · exact rme_ok_of_not_raise today value n rec (hhead hch)
    have htl := ih (fun q hq => h q (List.mem_cons_of_mem _ hq))
    simp only [searchEntries, hrme, htl, searchChunks]

/-- Every chunk of a completed search carries a key of the store. -/
theorem searchChunks_key (value : List Char) :
    ∀ book : List (List Char × Record), ∀ e ∈ searchChunks value book,
      e.1 ∈ book.map Prod.fst := by
  intro book
  induction book with
  | nil => intro e he; cases he
  | cons p rest ih =>
    obtain ⟨n0, rec0⟩ := p
    intro e he
    rw [searchChunks] at he
    rcases List.mem_append.mp he with h | h
    · rw [List.map_cons]
      exact List.mem_cons.mpr (Or.inl (recordChunks_key value n0 rec0 e h))
    · rw [List.map_cons]
      exact List.mem_cons_of_mem _ (ih e h)

/-- One record's chunk list is empty exactly when neither its name nor
any of its phones matches the term. -/
theorem recordChunks_eq_nil (value n : List Char) (rec : Record) :
    recordChunks value n rec = [] ↔
      (listSub (lowerChars value) (lowerChars n) = false ∧
        ∀ ph ∈ rec.phones, listSub value ph = false) := by
  unfold recordChunks
  rw [List.append_eq_nil]
  constructor
  · rintro ⟨h1, h2⟩
    constructor
    · by_cases hc : listSub (lowerChars value) (lowerChars n) = true
      · rw [if_pos hc] at h1
        cases h1
      · simpa using hc
    · intro ph hph
      rw [List.map_eq_nil_iff, List.filter_eq_nil_iff] at h2
      simpa using h2 ph hph
  · rintro ⟨h1, h2⟩
    refine ⟨by simp [h1], ?_⟩
    rw [List.map_eq_nil_iff, List.filter_eq_nil_iff]
    intro a ha
    simpa using h2 a ha

/-- The completed chunk list is empty exactly when no record matches. -/
theorem searchChunks_eq_nil (value : List Char) :
    ∀ book : List (List Char × Record),
      searchChunks value book = [] ↔
        ∀ p ∈ book, listSub (lowerChars value) (lowerChars p.1) = false ∧
          ∀ ph ∈ p.2.phones, listSub value ph = false := by
  intro book
  induction book with
  | nil => simp [searchChunks]
  | cons p rest ih =>
    obtain ⟨n0, rec0⟩ := p
    rw [searchChunks, List.append_eq_nil, ih, recordChunks_eq_nil]
    constructor
    · rintro ⟨h1, h2⟩ q hq
      rcases List.mem_cons.mp hq with rfl | hq2
      · exact h1
      · exact h2 q hq2
    · intro h
      exact ⟨h (n0, rec0) (List.mem_cons_self _ _), fun q hq =>
        h q (List.mem_cons_of_mem _ hq)⟩

/-- Multiplicity of one record's key in a completed search: one chunk
for a name match plus one chunk per matching phone (keys unique). -/
theorem searchChunks_countP (value name : List Char) (rec : Record) :
    ∀ book : List (List Char × Record), (name, rec) ∈ book →
      (book.map Prod.fst).Nodup →
      (searchChunks value book).countP (fun e => decide (e.1 = name)) =
        (if listSub (lowerChars value) (lowerChars name) then 1 else 0) +
          (rec.phones.filter (fun p => listSub value p)).length := by
  intro book
  induction book with
  | nil => intro h; cases h
  | cons p rest ih =>
    obtain ⟨n0, rec0⟩ := p
    intro hmem hnodup
    simp only [List.map_cons, List.nodup_cons] at hnodup
    rw [searchChunks, List.countP_append]
    rcases List.mem_cons.mp hmem with heq | htail
    · injection heq with h1 h2
      subst h1
      subst h2
      have hhead : (recordChunks value name rec).countP
          (fun e => decide (e.1 = name)) =
          (recordChunks value name rec).length :=
        List.countP_eq_length.mpr fun e he => by
          simp [recordChunks_key value name rec e he]
      have htl : (searchChunks value rest).countP
          (fun e => decide (e.1 = name)) = 0 :=
        List.countP_eq_zero.mpr fun e he => by
          have := searchChunks_key value rest e he
          simp only [decide_eq_true_eq]
          intro hc
          exact hnodup.1 (hc ▸ this)
      rw [hhead, htl]
      unfold recordChunks
      rw [List.length_append, List.length_map]
      by_cases hc : listSub (lowerChars value) (lowerChars name) = true <;>
        simp [hc]
    · have hkey : name ∈ rest.map Prod.fst :=
        List.mem_map.mpr ⟨(name, rec), htail, rfl⟩
      have hne : ¬ (n0 = name) := fun hc => hnodup.1 (hc ▸ hkey)
      have hhead : (recordChunks value n0 rec0).countP
          (fun e => decide (e.1 = name)) = 0 :=
        List.countP_eq_zero.mpr fun e he => by
          simp only [decide_eq_true_eq]
          intro hc
          exact hne ((recordChunks_key value n0 rec0 e he) ▸ hc)
      rw [hhead, ih htail hnodup.2, Nat.zero_add]

/-- Claim C6 (amended): a term shorter than 3 characters yields the
usage signal before any record is rendered (and nothing else yields
it); for a longer term the no-matches outcome happens exactly when no
record matches by name (case-insensitively) or by phone substring;
whenever no matched record's rendering raises — each appended
`str(rec)` calls `days_to_birthday()`, which raises `ValueError` for a
Feb 29 birthday whose year replacement fails and aborts the search —
the accumulation completes, and a completed non-empty match list is
returned as the result, containing each record once for a name match
plus once per phone containing the term. -/
theorem search_c6 (today : PyDate) (book : List (List Char × Record))
    (value : List Char) :
    (search today book value = .ok .tooShort ↔ value.length < 3) ∧
    (3 ≤ value.length →
      ((search today book value = .ok .noMatch ↔
        ∀ p ∈ book, listSub (lowerChars value) (lowerChars p.1) = false ∧
          ∀ ph ∈ p.2.phones, listSub value ph = false) ∧
      ((∀ p ∈ book, recordChunks value p.1 p.2 ≠ [] →
          ¬ days_to_birthday today p.2.birthday = DaysResult.valueError) →
        searchEntries today value book = .ok (searchChunks value book)) ∧
      (∀ es, searchEntries today value book = .ok es →
        (es ≠ [] → search today book value = .ok (.found es)) ∧
        (∀ name rec, (name, rec) ∈ book → (book.map Prod.fst).Nodup →
          es.countP (fun e => decide (e.1 = name)) =
            (if listSub (lowerChars value) (lowerChars name) then 1 else 0) +
              (rec.phones.filter (fun p => listSub value p)).length)))) := by
  constructor
  · by_cases h : value.length < 3
    · simp [search, h]
    · refine ⟨fun hc => ?_, fun hc => absurd hc h⟩
      rw [search, if_neg h] at hc
      rcases hE : searchEntries today value book with e | es
      · simp only [hE] at hc
        exact Except.noConfusion hc
      · rcases es with _ | ⟨e0, es0⟩ <;> simp only [hE] at hc
        · injection hc with h2
          exact SearchResult.noConfusion h2
        · injection hc with h2
          exact SearchResult.noConfusion h2
  · intro hlen
    have h3 : ¬ value.length < 3 := Nat.not_lt.mpr hlen
    refine ⟨⟨fun hc => ?_, fun hall => ?_⟩,
      searchEntries_completes today value book,
      fun es hes => ⟨fun hne => ?_, fun name rec hmem hnodup => ?_⟩⟩
    · rw [search, if_neg h3] at hc
      rcases hE : searchEntries today value book with e | es
      · simp only [hE] at hc
        exact Except.noConfusion hc
      · rcases es with _ | ⟨e0, es0⟩
        · have h0 := searchEntries_ok today value book [] hE
          rw [← searchChunks_eq_nil value book]
          exact h0.symm
        · simp only [hE] at hc
          injection hc with h2
          exact SearchResult.noConfusion h2
    · have hch : searchChunks value book = [] :=
        (searchChunks_eq_nil value book).mpr hall
      have hcompl := searchEntries_completes today value book
        (fun p hp hne =>
          absurd ((recordChunks_eq_nil value p.1 p.2).mpr (hall p hp)) hne)
      rw [search, if_neg h3]
      simp only [hcompl, hch]
    · rcases es with _ | ⟨e0, es0⟩
      · exact absurd rfl hne
      · rw [search, if_neg h3]
        simp only [hes]
    · have h0 := searchEntries_ok today value book es hes
      rw [h0]
      exact searchChunks_countP value name rec book hmem hnodup

/-- Witness for C6 on a one-record store whose rendering cannot raise
(no birthday): a 3-letter term completes, finds "John" once (name
match, no phone match), and a 2-letter term is rejected with the usage
signal. -/
theorem search_c6_witness :
    search ⟨2024, 5, 10⟩
      [(("John").toList,
        ⟨("John").toList, [("0123456789").toList], none, none, none⟩)]
      (("Joh").toList) =
      .ok (.found [(("John").toList,
        ⟨("John").toList, [("0123456789").toList], none, none, none⟩)]) ∧
    search ⟨2024, 5, 10⟩
      [(("John").toList,
        ⟨("John").toList, [("0123456789").toList], none, none, none⟩)]
      (("Jo").toList) = .ok .tooShort ∧
    ([(("John").toList,
        ⟨("John").toList, [("0123456789").toList], none, none, none⟩)]
      : List (List Char × Record)).countP
      (fun e => decide (e.1 = ("John").toList)) = 1 := by
  refine ⟨?_, ?_, ?_⟩
  · exact (((search_c6 ⟨2024, 5, 10⟩ [(("John").toList,
      ⟨("John").toList, [("0123456789").toList], none, none, none⟩)]
      (("Joh").toList)).2 (by decide)).2.2
      [(("John").toList,
        ⟨("John").toList, [("0123456789").toList], none, none, none⟩)]
      (by decide)).1 (by decide)
  · exact (search_c6 ⟨2024, 5, 10⟩ [(("John").toList,
      ⟨("John").toList, [("0123456789").toList], none, none, none⟩)]
      (("Jo").toList)).1.mpr (by decide)
  · have h := (((search_c6 ⟨2024, 5, 10⟩ [(("John").toList,
      ⟨("John").toList, [("0123456789").toList], none, none, none⟩)]
      (("Joh").toList)).2 (by decide)).2.2
      [(("John").toList,
        ⟨("John").toList, [("0123456789").toList], none, none, none⟩)]
      (by decide)).2
      (("John").toList)
      ⟨("John").toList, [("0123456789").toList], none, none, none⟩
      (by decide) (by decide)
    exact h.trans (by decide)

/-- Counterexample to claim C6 as stated: the 3-letter term "Joh"
matches the record stored under "John" case-insensitively, so per the
claim the record must appear in a match list; but the record's
birthday is Feb 29 and 2023 is not a leap year, so the very first
`str(rec)` append raises `ValueError` out of `search` instead of any
match list, usage signal or no-matches outcome. -/
theorem search_c6_cex :
    search ⟨2023, 6, 15⟩
      [(("John").toList,
        ⟨("John").toList, [], some ⟨2024, 2, 29⟩, none, none⟩)]
      (("Joh").toList) = .error () ∧
    listSub (lowerChars (("Joh").toList))
      (lowerChars (("John").toList)) = true := by
  constructor
  · decide
  · decide

/-- February always has at least 28 days. -/
theorem daysInMonth_feb_ge (y : Nat) : 28 ≤ daysInMonth y 2 := by
  unfold daysInMonth
  rcases isLeapYear y with _ | _ <;> simp

/-- February has at most 29 days. -/
theorem daysInMonth_feb_le (y : Nat) : daysInMonth y 2 ≤ 29 := by
  unfold daysInMonth
  rcases isLeapYear y with _ | _ <;> simp

/-- Outside February the month length does not depend on the year. -/
theorem daysInMonth_ne_feb (y1 y2 m : Nat) (h : ¬ m = 2) :
    daysInMonth y1 m = daysInMonth y2 m := by
  unfold daysInMonth
  rw [if_neg h, if_neg h]

/-- A valid month/day other than Feb 29 stays valid under any year
within `date`'s bounds — the core of why `date.replace(year=...)`
only ever raises for Feb 29 birthdays. -/
theorem isValidYMD_replace (yb mb db y : Nat)
    (hb : isValidYMD yb mb db = true) (hy1 : 1 ≤ y) (hy2 : y ≤ 9999)
    (h29 : ¬ (mb = 2 ∧ db = 29)) : isValidYMD y mb db = true := by
  unfold isValidYMD at hb ⊢
  simp only [Bool.and_eq_true, decide_eq_true_eq] at hb ⊢
  obtain ⟨⟨⟨⟨⟨_, _⟩, hm1⟩, hm2⟩, hd1⟩, hd2⟩ := hb
  refine ⟨⟨⟨⟨⟨hy1, hy2⟩, hm1⟩, hm2⟩, hd1⟩, ?_⟩
  by_cases hm : mb = 2
  · subst hm
    have h1 : db ≤ 29 := le_trans hd2 (daysInMonth_feb_le yb)
    have h2 : ¬ db = 29 := fun hc => h29 ⟨rfl, hc⟩
    exact le_trans (by omega) (daysInMonth_feb_ge y)
  · rw [daysInMonth_ne_feb y yb mb hm]
    exact hd2

/-- `date.replace` succeeds whenever the month/day is not Feb 29 and the
target year is in range. -/
theorem replaceYear_ok (b : PyDate) (y : Nat)
    (hb : isValidDate b = true) (hy1 : 1 ≤ y) (hy2 : y ≤ 9999)
    (h29 : ¬ (b.month = 2 ∧ b.day = 29)) :
    replaceYear b y = some ⟨y, b.month, b.day⟩ := by
  unfold replaceYear
  rw [if_pos (isValidYMD_replace b.year b.month b.day y hb hy1 hy2 h29)]

/-- The year bounds packed in a valid date. -/
theorem isValidDate_year (d : PyDate) (h : isValidDate d = true) :
    1 ≤ d.year ∧ d.year ≤ 9999 := by
  unfold isValidDate isValidYMD at h
  simp only [Bool.and_eq_true, decide_eq_true_eq] at h
  exact ⟨h.1.1.1.1.1, h.1.1.1.1.2⟩

/-- Claim C1 (amended): for a record with no birthday the no-birthday
outcome is returned; for a birthday whose month/day is not Feb 29 (for
Feb 29 the source raises `ValueError` out of `date.replace` whenever
the target year is not a leap year), `days_to_birthday` returns the
distinguished "today" result when the birthday's month/day equals
today's month/day; otherwise, when this year's anniversary is
yesterday or earlier it advances the anniversary to next year before
taking the day difference, and when it is still ahead it returns the
days from today to this year's anniversary — in particular a birthday
falling tomorrow yields 1. -/
theorem days_to_birthday_c1 (today b : PyDate)
    (hvt : isValidDate today = true) (hvb : isValidDate b = true)
    (h29 : ¬ (b.month = 2 ∧ b.day = 29))
    (hy : today.year ≤ 9998) :
    (days_to_birthday today none = .noBirthday) ∧
    (b.month = today.month ∧ b.day = today.day →
      days_to_birthday today (some b) = .birthdayToday) ∧
    (¬ (b.month = today.month ∧ b.day = today.day) →
      ((PyDate.mk today.year b.month b.day).toOrdinal + 1 ≤ today.toOrdinal →
        days_to_birthday today (some b) =
          .days (((PyDate.mk (today.year + 1) b.month b.day).toOrdinal : Int) -
            (today.toOrdinal : Int))) ∧
      (today.toOrdinal < (PyDate.mk today.year b.month b.day).toOrdinal + 1 →
        days_to_birthday today (some b) =
          .days (((PyDate.mk today.year b.month b.day).toOrdinal : Int) -
            (today.toOrdinal : Int)) ∧
        ((PyDate.mk today.year b.month b.day).toOrdinal = today.toOrdinal + 1 →
          days_to_birthday today (some b) = .days 1))) := by
  obtain ⟨hty1, hty2⟩ := isValidDate_year today hvt
  have hrep : replaceYear b today.year = some ⟨today.year, b.month, b.day⟩ :=
    replaceYear_ok b today.year hvb hty1 hty2 h29
  refine ⟨rfl, ?_, ?_⟩
  · intro hmd
    have heq : PyDate.mk today.year b.month b.day = today := by
      rw [hmd.1, hmd.2]
    simp only [days_to_birthday, hrep]
    rw [if_pos heq.symm]
  · intro hne
    have hneq : ¬ (today = PyDate.mk today.year b.month b.day) := by
      intro hc
      exact hne ⟨(congrArg PyDate.month hc).symm, (congrArg PyDate.day hc).symm⟩
    constructor
    · intro hpassed
      have hcond : ((PyDate.mk today.year b.month b.day).toOrdinal : Int) ≤
          (today.toOrdinal : Int) - 1 := by omega
      have hrep2 : replaceYear (PyDate.mk today.year b.month b.day)
          (today.year + 1) = some ⟨today.year + 1, b.month, b.day⟩ :=
        replaceYear_ok (PyDate.mk today.year b.month b.day) (today.year + 1)
          (by
            unfold isValidDate
            exact isValidYMD_replace b.year b.month b.day today.year
              hvb hty1 hty2 h29)
          (by omega) (by omega) h29
      simp only [days_to_birthday, hrep]
      rw [if_neg hneq, if_pos hcond]
      simp only [hrep2]
    · intro hahead
      have hcond : ¬ (((PyDate.mk today.year b.month b.day).toOrdinal : Int) ≤
          (today.toOrdinal : Int) - 1) := by omega
      have hmain : days_to_birthday today (some b) =
          .days (((PyDate.mk today.year b.month b.day).toOrdinal : Int) -
            (today.toOrdinal : Int)) := by
        simp only [days_to_birthday, hrep]
        rw [if_neg hneq, if_neg hcond]
      refine ⟨hmain, fun htom => ?_⟩
      rw [hmain]
      have : ((PyDate.mk today.year b.month b.day).toOrdinal : Int) -
          (today.toOrdinal : Int) = 1 := by omega
      rw [this]

/-- Witness for C1 at concrete dates (today = 2024-05-10): no birthday
gives the no-birthday outcome; a 1990-05-10 birthday is "today"; a
1990-05-11 birthday is tomorrow and yields 1 day; a 1990-05-09
birthday already passed and rolls over to 2025-05-09, 364 days ahead. -/
theorem days_to_birthday_c1_witness :
    days_to_birthday ⟨2024, 5, 10⟩ none = .noBirthday ∧
    days_to_birthday ⟨2024, 5, 10⟩ (some ⟨1990, 5, 10⟩) = .birthdayToday ∧
    days_to_birthday ⟨2024, 5, 10⟩ (some ⟨1990, 5, 11⟩) = .days 1 ∧
    days_to_birthday ⟨2024, 5, 10⟩ (some ⟨1990, 5, 9⟩) =
      .days (((PyDate.mk 2025 5 9).toOrdinal : Int) -
        ((PyDate.mk 2024 5 10).toOrdinal : Int)) := by
  refine ⟨(days_to_birthday_c1 ⟨2024, 5, 10⟩ ⟨1990, 5, 10⟩ (by decide)
      (by decide) (by decide) (by decide)).1, ?_, ?_, ?_⟩
  · exact (days_to_birthday_c1 ⟨2024, 5, 10⟩ ⟨1990, 5, 10⟩ (by decide)
      (by decide) (by decide) (by decide)).2.1 (by decide)
  · exact (((days_to_birthday_c1 ⟨2024, 5, 10⟩ ⟨1990, 5, 11⟩ (by decide)
      (by decide) (by decide) (by decide)).2.2 (by decide)).2 (by decide)).2
      (by decide)
  · exact ((days_to_birthday_c1 ⟨2024, 5, 10⟩ ⟨1990, 5, 9⟩ (by decide)
      (by decide) (by decide) (by decide)).2.2 (by decide)).1 (by decide)

/-- Counterexample to claim C1 as stated: "2024.02.29" is an accepted
birthday string, but with today in 2023 the method propagates the
`ValueError` raised by `date.replace(year=2023)` instead of returning
any of the outcomes the claim describes. -/
theorem days_to_birthday_c1_cex :
    strptimeYMD (("2024.02.29").toList) = some ⟨2024, 2, 29⟩ ∧
    days_to_birthday ⟨2023, 6, 15⟩ (some ⟨2024, 2, 29⟩) = .valueError := by
  constructor
  · decide
  · decide

/-- A completed query relates to its record loop: the returned option,
read as a list, is exactly what the loop collected. -/
theorem bigd_ok (today : PyDate) (book : List (List Char × Record))
    (value : Nat) (r : Option (List (List Char)))
    (hok : birthday_in_given_days today book value = .ok r) :
    ∃ l, bigdGo today ((today.toOrdinal : Int) + value) book = .ok l ∧
      r.getD [] = l := by
  unfold birthday_in_given_days at hok
  rcases hgo : bigdGo today ((today.toOrdinal : Int) + value) book with e | l
  · rw [hgo] at hok
    cases hok
  · rw [hgo] at hok
    cases l with
    | nil =>
      refine ⟨[], rfl, ?_⟩
      injection hok with h
      rw [← h]
      rfl
    | cons x xs =>
      refine ⟨x :: xs, rfl, ?_⟩
      injection hok with h
      rw [← h]
      rfl

/-- Every name the loop collects is a key of the traversed store. -/
theorem bigdGo_keys (today : PyDate) (endOrd : Int) :
    ∀ book : List (List Char × Record), ∀ l,
      bigdGo today endOrd book = .ok l →
      ∀ x ∈ l, x ∈ book.map Prod.fst := by
  intro book
  induction book with
  | nil =>
    intro l hok x hx
    injection hok with h
    rw [← h] at hx
    cases hx
  | cons p rest ih =>
    obtain ⟨n0, rec0⟩ := p
    intro l hok x hx
    rcases hb : rec0.birthday with _ | b
    · simp only [bigdGo, hb] at hok
      exact List.mem_cons_of_mem _ (ih l hok x hx)
    · simp only [bigdGo, hb] at hok
      rcases hres : resolveBirth today b with e | birth
      · simp only [hres] at hok
        exact Except.noConfusion hok
      · simp only [hres] at hok
        rcases hrest : bigdGo today endOrd rest with e | tail
        · simp only [hrest] at hok
          exact Except.noConfusion hok
        · simp only [hrest] at hok
          by_cases hw : (today.toOrdinal : Int) ≤ (birth.toOrdinal : Int) ∧
              (birth.toOrdinal : Int) ≤ endOrd
          · rw [if_pos hw] at hok
            injection hok with h
            rw [← h] at hx
            rcases List.mem_cons.mp hx with rfl | hx2
            · exact List.mem_cons.mpr (Or.inl rfl)
            · exact List.mem_cons_of_mem _ (ih tail hrest x hx2)
          · rw [if_neg hw] at hok
            injection hok with h
            rw [← h] at hx
            exact List.mem_cons_of_mem _ (ih tail hrest x hx)

/-- Core of the window query: with unique keys, a record with a
resolvable birthday is collected exactly when its resolved anniversary
lies in the inclusive window. -/
theorem bigdGo_mem (today : PyDate) (endOrd : Int) (name : List Char)
    (rec : Record) (b birth : PyDate) (hb : rec.birthday = some b)
    (hres : resolveBirth today b = .ok birth) :
    ∀ book : List (List Char × Record), ∀ l,
      (name, rec) ∈ book → (book.map Prod.fst).Nodup →
      bigdGo today endOrd book = .ok l →
      (name ∈ l ↔ ((today.toOrdinal : Int) ≤ (birth.toOrdinal : Int) ∧
        (birth.toOrdinal : Int) ≤ endOrd)) := by
  intro book
  induction book with
  | nil => intro l hmem; cases hmem
  | cons p rest ih =>
    obtain ⟨n0, rec0⟩ := p
    intro l hmem hnodup hok
    simp only [List.map_cons, List.nodup_cons] at hnodup
    rcases List.mem_cons.mp hmem with heq | htail
    · injection heq with h1 h2
      subst h1
      subst h2
      simp only [bigdGo, hb, hres] at hok
      rcases hrest : bigdGo today endOrd rest with e | tail
      · simp only [hrest] at hok
        exact Except.noConfusion hok
      · simp only [hrest] at hok
        have hnotin : name ∉ tail := fun hc =>
          hnodup.1 (bigdGo_keys today endOrd rest tail hrest name hc)
        by_cases hw : (today.toOrdinal : Int) ≤ (birth.toOrdinal : Int) ∧
            (birth.toOrdinal : Int) ≤ endOrd
        · rw [if_pos hw] at hok
          injection hok with h
          rw [← h]
          exact ⟨fun _ => hw, fun _ => List.mem_cons.mpr (Or.inl rfl)⟩
        · rw [if_neg hw] at hok
          injection hok with h
          rw [← h]
          exact ⟨fun hc => absurd hc hnotin, fun hc => absurd hc hw⟩
    · have hkey : name ∈ rest.map Prod.fst :=
        List.mem_map.mpr ⟨(name, rec), htail, rfl⟩
      have hne : name ≠ n0 := fun hc => hnodup.1 (hc ▸ hkey)
      rcases hb0 : rec0.birthday with _ | b0
      · simp only [bigdGo, hb0] at hok
        exact ih l htail hnodup.2 hok
      · simp only [bigdGo, hb0] at hok
        rcases hres0 : resolveBirth today b0 with e | birth0
        · simp only [hres0] at hok
          exact Except.noConfusion hok
        · simp only [hres0] at hok
          rcases hrest : bigdGo today endOrd rest with e | tail
          · simp only [hrest] at hok
            exact Except.noConfusion hok
          · simp only [hrest] at hok
            have hiff := ih tail htail hnodup.2 hrest
            by_cases hw : (today.toOrdinal : Int) ≤ (birth0.toOrdinal : Int) ∧
                (birth0.toOrdinal : Int) ≤ endOrd
            · rw [if_pos hw] at hok
              injection hok with h
              rw [← h]
              rw [List.mem_cons]
              exact ⟨fun hc => hiff.mp (hc.resolve_left hne),
                fun hc => Or.inr (hiff.mpr hc)⟩
            · rw [if_neg hw] at hok
              injection hok with h
              rw [← h]
              exact hiff

/-- Claim C2 (amended): for `0 ≤ N < 365`, whenever the query completes
without a date-replacement `ValueError`, a record with a birthday is
listed exactly when its anniversary as the query resolves it — this
year's date, advanced to next year only when strictly before yesterday
(`birth < today - 1 day`; note `days_to_birthday` advances already at
yesterday, `<= today - 1 day`) — falls within the inclusive window
`[today, today + N days]`. -/
theorem birthday_in_given_days_c2 (today b birth : PyDate)
    (book : List (List Char × Record)) (N : Nat) (hN : N < 365)
    (name : List Char) (rec : Record)
    (hmem : (name, rec) ∈ book) (hb : rec.birthday = some b)
    (hnodup : (book.map Prod.fst).Nodup)
    (hres : resolveBirth today b = .ok birth)
    (r : Option (List (List Char)))
    (hok : birthday_in_given_days today book N = .ok r) :
    name ∈ r.getD [] ↔
      (today.toOrdinal ≤ birth.toOrdinal ∧
        birth.toOrdinal ≤ today.toOrdinal + N) := by
  obtain ⟨l, hgo, hrl⟩ := bigd_ok today book N r hok
  rw [hrl]
  rw [bigdGo_mem today ((today.toOrdinal : Int) + N) name rec b birth
    hb hres book l hmem hnodup hgo]
  constructor
  · intro ⟨h1, h2⟩
    exact ⟨by exact_mod_cast h1, by exact_mod_cast h2⟩
  · intro ⟨h1, h2⟩
    exact ⟨by exact_mod_cast h1, by exact_mod_cast h2⟩

/-- Witness for C2 on a one-record store (today = 2024-05-10, birthday
1990-05-12 resolving to 2024-05-12, window 30 days): the record is
listed, and the window test holds. -/
theorem birthday_in_given_days_c2_witness :
    ("Bob").toList ∈
      (Option.getD (some [("Bob").toList]) ([] : List (List Char))) ↔
      (PyDate.toOrdinal ⟨2024, 5, 10⟩ ≤ PyDate.toOrdinal ⟨2024, 5, 12⟩ ∧
        PyDate.toOrdinal ⟨2024, 5, 12⟩ ≤ PyDate.toOrdinal ⟨2024, 5, 10⟩ + 30) :=
  birthday_in_given_days_c2 ⟨2024, 5, 10⟩ ⟨1990, 5, 12⟩ ⟨2024, 5, 12⟩
    [(("Bob").toList,
      ⟨("Bob").toList, [], some ⟨1990, 5, 12⟩, none, none⟩)] 30
    (by decide) (("Bob").toList)
    ⟨("Bob").toList, [], some ⟨1990, 5, 12⟩, none, none⟩
    (by decide) (by decide) (by decide) (by decide)
    (some [("Bob").toList]) (by decide)

/-- Counterexample to claim C2 as stated: with today = 2023-01-16 a
birthday of Jan 15 fell exactly yesterday.  Under the claimed rule —
the rollover of `days_to_birthday` — its next anniversary is
2024-01-15, exactly 364 days ahead, hence inside the window for
N = 364; but the query's strict rollover (`birth < today - 1 day`)
leaves the anniversary at yesterday, outside `[today, today + N]`, and
the query reports no birthdays at all. -/
theorem birthday_in_given_days_c2_cex :
    birthday_in_given_days ⟨2023, 1, 16⟩
      [(("Ann").toList,
        ⟨("Ann").toList, [], some ⟨1990, 1, 15⟩, none, none⟩)] 364 =
      .ok none ∧
    days_to_birthday ⟨2023, 1, 16⟩ (some ⟨1990, 1, 15⟩) = .days 364 ∧
    resolveBirth ⟨2023, 1, 16⟩ ⟨1990, 1, 15⟩ = .ok ⟨2023, 1, 15⟩ := by
  refine ⟨by decide, by decide, by decide⟩

/-- `splitDots` always produces at least one part. -/
theorem splitDots_ne_nil (s : List Char) : splitDots s ≠ [] := by
  induction s with
  | nil => simp [splitDots]
  | cons c rest ih =>
    by_cases hc : c = '.'
    · simp [splitDots, hc]
    · rcases hsp : splitDots rest with _ | ⟨p, ps⟩ <;>
        simp [splitDots, hc, hsp]

/-- A dot-free string splits into itself alone. -/
theorem splitDots_no_dot (a : List Char) (ha : ∀ c ∈ a, ¬ c = '.') :
    splitDots a = [a] := by
  induction a with
  | nil => rfl
  | cons c rest ih =>
    have hc : ¬ c = '.' := ha c (List.mem_cons_self _ _)
    have ih2 := ih (fun x hx => ha x (List.mem_cons_of_mem _ hx))
    simp [splitDots, hc, ih2]

/-- Splitting after a dot-free prefix peels off exactly that prefix. -/
theorem splitDots_append (a rest : List Char) (ha : ∀ c ∈ a, ¬ c = '.') :
    splitDots (a ++ '.' :: rest) = a :: splitDots rest := by
  induction a with
  | nil => simp [splitDots]
  | cons c as ih =>
    have hc : ¬ c = '.' := ha c (List.mem_cons_self _ _)
    have ih2 := ih (fun x hx => ha x (List.mem_cons_of_mem _ hx))
    rw [List.cons_append]
    simp [splitDots, hc, ih2]

/-- Rejoining the split recovers the original string. -/
theorem joinDots_splitDots (s : List Char) : joinDots (splitDots s) = s := by
  induction s with
  | nil => rfl
  | cons c rest ih =>
    rcases hsp : splitDots rest with _ | ⟨p, ps⟩
    · exact absurd hsp (splitDots_ne_nil rest)
    · rw [hsp] at ih
      by_cases hc : c = '.'
      · subst hc
        simp only [splitDots, if_pos rfl, hsp]
        cases ps with
        | nil => simpa [joinDots] using ih
        | cons q qs => simpa [joinDots] using ih
      · simp only [splitDots, hc, if_neg hc, hsp]
        cases ps with
        | nil => simpa [joinDots] using ih
        | cons q qs => simpa [joinDots] using ih

/-- Digits are not dots. -/
theorem isDigitChar_ne_dot (c : Char) (h : isDigitChar c = true) :
    ¬ c = '.' := by
  intro hc
  subst hc
  exact absurd h (by decide)

/-- A `%m` match consists of digits. -/
theorem monthPat_digits (ms : List Char) (m : Nat) (h : monthPat ms = some m) :
    ∀ c ∈ ms, isDigitChar c = true := by
  rcases ms with _ | ⟨c1, _ | ⟨c2, _ | ⟨c3, cs⟩⟩⟩
  · intro x hx; cases hx
  · intro x hx
    rcases List.mem_singleton.mp hx with rfl
    simp only [monthPat] at h
    by_cases hc : (1 ≤ charVal x && charVal x ≤ 9) = true
    · simp only [Bool.and_eq_true, decide_eq_true_eq] at hc
      simp only [isDigitChar, decide_eq_true_eq]
      omega
    · rw [if_neg hc] at h
      cases h
  · simp only [monthPat] at h
    by_cases hc : (c1 = '1' && charVal c2 ≤ 2) = true
    · simp only [Bool.and_eq_true, decide_eq_true_eq] at hc
      intro x hx
      rcases List.mem_cons.mp hx with rfl | hx2
      · rw [hc.1]; decide
      · rcases List.mem_singleton.mp hx2 with rfl
        simp only [isDigitChar, decide_eq_true_eq]
        omega
    · rw [if_neg hc] at h
      by_cases hc2 : (c1 = '0' && 1 ≤ charVal c2 && charVal c2 ≤ 9) = true
      · simp only [Bool.and_eq_true, decide_eq_true_eq] at hc2
        obtain ⟨⟨hca, hcb⟩, hcc⟩ := hc2
        intro x hx
        rcases List.mem_cons.mp hx with rfl | hx2
        · rw [hca]; decide
        · rcases List.mem_singleton.mp hx2 with rfl
          simp only [isDigitChar, decide_eq_true_eq]
          omega
      · rw [if_neg hc2] at h
        cases h
  · cases h

/-- A `%d` match consists of digits. -/
theorem dayPat_digits (ds : List Char) (d : Nat) (h : dayPat ds = some d) :
    ∀ c ∈ ds, isDigitChar c = true := by
  rcases ds with _ | ⟨c1, _ | ⟨c2, _ | ⟨c3, cs⟩⟩⟩
  · intro x hx; cases hx
  · intro x hx
    rcases List.mem_singleton.mp hx with rfl
    simp only [dayPat] at h
    by_cases hc : (1 ≤ charVal x && charVal x ≤ 9) = true
    · simp only [Bool.and_eq_true, decide_eq_true_eq] at hc
      simp only [isDigitChar, decide_eq_true_eq]
      omega
    · rw [if_neg hc] at h
      cases h
  · simp only [dayPat] at h
    by_cases hc : (c1 = '3' && charVal c2 ≤ 1) = true
    · simp only [Bool.and_eq_true, decide_eq_true_eq] at hc
      intro x hx
      rcases List.mem_cons.mp hx with rfl | hx2
      · rw [hc.1]; decide
      · rcases List.mem_singleton.mp hx2 with rfl
        simp only [isDigitChar, decide_eq_true_eq]
        omega
    · rw [if_neg hc] at h
      by_cases hc2 : ((c1 = '1' || c1 = '2') && charVal c2 ≤ 9) = true
      · simp only [Bool.and_eq_true, Bool.or_eq_true, decide_eq_true_eq] at hc2
        intro x hx
        rcases List.mem_cons.mp hx with rfl | hx2
        · rcases hc2.1 with h1 | h1 <;> rw [h1] <;> decide
        · rcases List.mem_singleton.mp hx2 with rfl
          simp only [isDigitChar, decide_eq_true_eq]
          omega
      · rw [if_neg hc2] at h
        by_cases hc3 : (c1 = '0' && 1 ≤ charVal c2 && charVal c2 ≤ 9) = true
        · simp only [Bool.and_eq_true, decide_eq_true_eq] at hc3
          obtain ⟨⟨hca, hcb⟩, hcc⟩ := hc3
          intro x hx
          rcases List.mem_cons.mp hx with rfl | hx2
          · rw [hca]; decide
          · rcases List.mem_singleton.mp hx2 with rfl
            simp only [isDigitChar, decide_eq_true_eq]
            omega
        · rw [if_neg hc3] at h
          cases h
  · cases h

/-- A successful `datetime.date` construction yields a valid date. -/
theorem pyDateNew_valid (y m d : Nat) (dt : PyDate)
    (h : pyDateNew y m d = some dt) :
    isValidYMD y m d = true ∧ dt = ⟨y, m, d⟩ := by
  unfold pyDateNew at h
  by_cases hv : isValidYMD y m d = true
  · rw [if_pos hv] at h
    injection h with h2
    exact ⟨hv, h2.symm⟩
  · rw [if_neg hv] at h
    cases h

/-- `digitChar` always produces a digit. -/
theorem digitChar_isDigit (k : Nat) : isDigitChar (digitChar k) = true := by
  unfold digitChar
  split_ifs <;> decide

/-- `charVal` inverts `digitChar` below 10. -/
theorem charVal_digitChar (k : Nat) (hk : k < 10) :
    charVal (digitChar k) = k := by
  unfold digitChar
  split_ifs with h1 h2 h3 h4 h5 h6 h7 h8 h9
  · subst h1; decide
  · subst h2; decide
  · subst h3; decide
  · subst h4; decide
  · subst h5; decide
  · subst h6; decide
  · subst h7; decide
  · subst h8; decide
  · subst h9; decide
  · have h0 : k = 0 := by omega
    subst h0; decide

/-- Reading back the zero-padded four-digit year. -/
theorem digitsToNat_pad4 (y : Nat) (hy : y < 10000) :
    digitsToNat (pad4 y) = y := by
  unfold pad4 digitsToNat
  simp only [List.foldl]
  rw [charVal_digitChar _ (by omega), charVal_digitChar _ (by omega),
    charVal_digitChar _ (by omega), charVal_digitChar _ (by omega)]
  omega

/-- The zero-padded year is a `%Y` match. -/
theorem isYear4_pad4 (y : Nat) : isYear4 (pad4 y) = true := by
  unfold isYear4 pad4
  simp [digitChar_isDigit]

/-- The zero-padded month is reparsed by `%m` to the same value. -/
theorem monthPat_pad2 : ∀ m : Nat, m < 13 → 1 ≤ m →
    monthPat (pad2 m) = some m := by decide

/-- The zero-padded day is reparsed by `%d` to the same value. -/
theorem dayPat_pad2 : ∀ d : Nat, d < 32 → 1 ≤ d →
    dayPat (pad2 d) = some d := by decide

/-- No month is longer than 31 days. -/
theorem daysInMonth_le_31 (y m : Nat) : daysInMonth y m ≤ 31 := by
  unfold daysInMonth
  split_ifs <;> omega

/-- Valid-date bounds, unpacked. -/
theorem isValidYMD_bounds (y m d : Nat) (h : isValidYMD y m d = true) :
    1 ≤ y ∧ y ≤ 9999 ∧ 1 ≤ m ∧ m ≤ 12 ∧ 1 ≤ d ∧ d ≤ daysInMonth y m := by
  unfold isValidYMD at h
  simp only [Bool.and_eq_true, decide_eq_true_eq] at h
  tauto

/-- Rendering a valid date gives the strict zero-padded form and
reparsing it recovers the date. -/
theorem strftime_reparse (dt : PyDate) (hv : isValidDate dt = true) :
    matchesStrictYMD (strftimeYMD dt) = true ∧
    strptimeYMD (strftimeYMD dt) = some dt := by
  obtain ⟨y, m, d⟩ := dt
  unfold isValidDate at hv
  dsimp only at hv ⊢
  obtain ⟨hy1, hy2, hm1, hm2, hd1, hd2⟩ := isValidYMD_bounds y m d hv
  have hd31 : d ≤ 31 := le_trans hd2 (daysInMonth_le_31 y m)
  constructor
  · unfold strftimeYMD pad4 pad2 matchesStrictYMD
    dsimp only
    simp [digitChar_isDigit]
  · have hys : ∀ c ∈ pad4 y, ¬ c = '.' := by
      intro c hc
      refine isDigitChar_ne_dot c ?_
      unfold pad4 at hc
      simp only [List.mem_cons, List.not_mem_nil, or_false] at hc
      rcases hc with h | h | h | h <;> rw [h] <;> exact digitChar_isDigit _
    have hms : ∀ c ∈ pad2 m, ¬ c = '.' := by
      intro c hc
      refine isDigitChar_ne_dot c ?_
      unfold pad2 at hc
      simp only [List.mem_cons, List.not_mem_nil, or_false] at hc
      rcases hc with h | h <;> rw [h] <;> exact digitChar_isDigit _
    have hds : ∀ c ∈ pad2 d, ¬ c = '.' := by
      intro c hc
      refine isDigitChar_ne_dot c ?_
      unfold pad2 at hc
      simp only [List.mem_cons, List.not_mem_nil, or_false] at hc
      rcases hc with h | h <;> rw [h] <;> exact digitChar_isDigit _
    have hsplit : splitDots (strftimeYMD ⟨y, m, d⟩) =
        [pad4 y, pad2 m, pad2 d] := by
      unfold strftimeYMD
      dsimp only
      rw [List.append_assoc, List.cons_append, splitDots_append _ _ hys,
        splitDots_append _ _ hms, splitDots_no_dot _ hds]
    simp only [strptimeYMD, hsplit, isYear4_pad4, if_true,
      monthPat_pad2 m (by omega) hm1, dayPat_pad2 d (by omega) hd1,
      digitsToNat_pad4 y (by omega)]
    unfold pyDateNew
    rw [if_pos hv]

/-- Claim C4 (amended): `Birthday` construction succeeds exactly when
the string is year-dot-month-dot-day with the year exactly four
digits, month and day one or two digits (a leading zero optional, as
the underlying `strptime` patterns allow — so the strict `YYYY.MM.DD`
reading is too narrow), and the values forming a constructible
calendar date; `"2024.02.29"` is accepted (leap year), `"2023.02.29"`
and `"2024.02.30"` are rejected; an accepted value is stored as the
parsed date and rendered back zero-padded in `YYYY.MM.DD`, which
reparses to the same date. -/
theorem birthday_c4 (s : List Char) :
    ((strptimeYMD s).isSome = true ↔
      ∃ ys ms ds : List Char, ∃ m d : Nat,
        s = ys ++ '.' :: (ms ++ '.' :: ds) ∧ isYear4 ys = true ∧
        monthPat ms = some m ∧ dayPat ds = some d ∧
        isValidYMD (digitsToNat ys) m d = true) ∧
    (∀ dt, strptimeYMD s = some dt →
      matchesStrictYMD (strftimeYMD dt) = true ∧
      strptimeYMD (strftimeYMD dt) = some dt) ∧
    strptimeYMD (("2024.02.29").toList) = some ⟨2024, 2, 29⟩ ∧
    strptimeYMD (("2023.02.29").toList) = none ∧
    strptimeYMD (("2024.02.30").toList) = none := by
  have hfwd : ∀ dt, strptimeYMD s = some dt →
      isValidDate dt = true ∧
      ∃ ys ms ds : List Char, ∃ m d : Nat,
        s = ys ++ '.' :: (ms ++ '.' :: ds) ∧ isYear4 ys = true ∧
        monthPat ms = some m ∧ dayPat ds = some d ∧
        isValidYMD (digitsToNat ys) m d = true := by
    intro dt hdt
    unfold strptimeYMD at hdt
    rcases hsp : splitDots s with _ | ⟨ys, _ | ⟨ms, _ | ⟨ds, _ | ⟨x, parts⟩⟩⟩⟩ <;>
      rw [hsp] at hdt <;> dsimp only at hdt
    · cases hdt
    · cases hdt
    · cases hdt
    · by_cases h4 : isYear4 ys = true
      · rw [if_pos h4] at hdt
        rcases hm : monthPat ms with _ | m <;> rw [hm] at hdt
        · cases hdt
        · rcases hd : dayPat ds with _ | d <;> rw [hd] at hdt
          · cases hdt
          · obtain ⟨hv, hdt2⟩ :=
              pyDateNew_valid (digitsToNat ys) m d dt hdt
            have hs : s = ys ++ '.' :: (ms ++ '.' :: ds) := by
              have hj := joinDots_splitDots s
              rw [hsp] at hj
              simp only [joinDots] at hj
              exact hj.symm
            refine ⟨?_, ys, ms, ds, m, d, hs, h4, hm, hd, hv⟩
            rw [hdt2]
            unfold isValidDate
            exact hv
      · rw [if_neg h4] at hdt
        cases hdt
    · cases hdt
  refine ⟨⟨fun hsome => ?_, fun hex => ?_⟩, fun dt hdt =>
    strftime_reparse dt (hfwd dt hdt).1, by decide, by decide, by decide⟩
  · rcases hdt : strptimeYMD s with _ | dt
    · rw [hdt] at hsome
      cases hsome
    · exact (hfwd dt hdt).2
  · obtain ⟨ys, ms, ds, m, d, hs, h4, hm, hd, hv⟩ := hex
    have hys : ∀ c ∈ ys, ¬ c = '.' := fun c hc =>
      isDigitChar_ne_dot c (by
        have := (Bool.and_eq_true _ _).mp h4
        exact List.all_eq_true.mp this.2 c hc)
    have hms : ∀ c ∈ ms, ¬ c = '.' := fun c hc =>
      isDigitChar_ne_dot c (monthPat_digits ms m hm c hc)
    have hds : ∀ c ∈ ds, ¬ c = '.' := fun c hc =>
      isDigitChar_ne_dot c (dayPat_digits ds d hd c hc)
    have hsplit : splitDots s = [ys, ms, ds] := by
      rw [hs, splitDots_append _ _ hys, splitDots_append _ _ hms,
        splitDots_no_dot _ hds]
    simp only [strptimeYMD, hsplit, h4, if_true, hm, hd]
    unfold pyDateNew
    rw [if_pos hv]
    rfl

/-- Witness for C4 at "2024.02.29": the accepted leap-day string parses,
and the stored date renders back to the strict zero-padded format which
reparses to the same date. -/
theorem birthday_c4_witness :
    matchesStrictYMD (strftimeYMD ⟨2024, 2, 29⟩) = true ∧
    strptimeYMD (strftimeYMD ⟨2024, 2, 29⟩) = some ⟨2024, 2, 29⟩ :=
  (birthday_c4 (("2024.02.29").toList)).2.1 ⟨2024, 2, 29⟩ (by decide)

/-- Counterexample to claim C4 as stated: "2024.2.29" does not match the
strict `YYYY.MM.DD` shape (the month has a single digit), yet
`Birthday` construction succeeds, because `strptime`'s `%m` pattern
also accepts months without a leading zero. -/
theorem birthday_c4_cex :
    strptimeYMD (("2024.2.29").toList) = some ⟨2024, 2, 29⟩ ∧
    matchesStrictYMD (("2024.2.29").toList) = false := by
  constructor
  · decide
  · decide

/-- `splitFirstAt` finds the split at the first occurrence. -/
theorem splitFirstAt_eq (c : Char) (l r : List Char)
    (hl : ∀ x ∈ l, ¬ x = c) :
    splitFirstAt c (l ++ c :: r) = some (l, r) := by
  induction l with
  | nil => simp [splitFirstAt]
  | cons a as ih =>
    have ha : ¬ a = c := hl a (List.mem_cons_self _ _)
    have ih2 := ih (fun x hx => hl x (List.mem_cons_of_mem _ hx))
    simp [splitFirstAt, ha, ih2]

/-- What a successful `splitFirstAt` asserts about its input. -/
theorem splitFirstAt_sound (c : Char) :
    ∀ s l r : List Char, splitFirstAt c s = some (l, r) →
      s = l ++ c :: r ∧ ∀ x ∈ l, ¬ x = c := by
  intro s
  induction s with
  | nil => intro l r h; cases h
  | cons a as ih =>
    intro l r h
    by_cases ha : a = c
    · simp only [splitFirstAt, if_pos ha] at h
      simp only [Option.some.injEq, Prod.mk.injEq] at h
      obtain ⟨hl, hr⟩ := h
      subst hl
      subst hr
      subst ha
      exact ⟨rfl, fun x hx => absurd hx (List.not_mem_nil x)⟩
    · simp only [splitFirstAt, if_neg ha] at h
      rcases hsp : splitFirstAt c as with _ | ⟨l2, r2⟩ <;> rw [hsp] at h
      · cases h
      · simp only [Option.some.injEq, Prod.mk.injEq] at h
        obtain ⟨hl, hr⟩ := h
        subst hl
        subst hr
        obtain ⟨hs2, hfree⟩ := ih l2 r2 hsp
        refine ⟨by rw [hs2]; rfl, fun x hx => ?_⟩
        rcases List.mem_cons.mp hx with rfl | hx2
        · exact ha
        · exact hfree x hx2

/-- What a successful `splitLastAt` asserts about its input. -/
theorem splitLastAt_sound (c : Char) (s d t : List Char)
    (h : splitLastAt c s = some (d, t)) :
    s = d ++ c :: t ∧ ∀ x ∈ t, ¬ x = c := by
  unfold splitLastAt at h
  rcases hsp : splitFirstAt c s.reverse with _ | ⟨r0, l0⟩ <;> rw [hsp] at h
  · cases h
  · simp only [Option.some.injEq, Prod.mk.injEq] at h
    obtain ⟨hd, ht⟩ := h
    subst hd
    subst ht
    obtain ⟨hs2, hfree⟩ := splitFirstAt_sound c s.reverse r0 l0 hsp
    constructor
    · have h2 := congrArg List.reverse hs2
      rw [List.reverse_reverse] at h2
      rw [h2]
      simp [List.reverse_append]
    · intro x hx
      exact hfree x (List.mem_reverse.mp hx)

/-- `splitLastAt` finds the split at the last occurrence. -/
theorem splitLastAt_eq (c : Char) (d t : List Char)
    (ht : ∀ x ∈ t, ¬ x = c) :
    splitLastAt c (d ++ c :: t) = some (d, t) := by
  unfold splitLastAt
  have hrev : (d ++ c :: t).reverse = t.reverse ++ c :: d.reverse := by
    simp [List.reverse_append]
  rw [hrev, splitFirstAt_eq c t.reverse d.reverse
    (fun x hx => ht x (List.mem_reverse.mp hx))]
  simp

/-- The checker decides exactly the regex body's decomposition
property. -/
theorem emailCheck_iff (s : List Char) :
    emailCheck s = true ↔ emailShape s := by
  constructor
  · intro h
    unfold emailCheck at h
    rcases hat : splitFirstAt '@' s with _ | ⟨l, rest⟩ <;> rw [hat] at h <;>
      dsimp only at h
    · cases h
    · rcases hdot : splitLastAt '.' rest with _ | ⟨d, t⟩ <;> rw [hdot] at h <;>
        dsimp only at h
      · cases h
      · simp only [Bool.and_eq_true, Bool.not_eq_true', decide_eq_true_eq]
          at h
        obtain ⟨⟨⟨⟨⟨hl0, hl⟩, hd0⟩, hd⟩, ht2⟩, ht⟩ := h
        obtain ⟨hs1, _⟩ := splitFirstAt_sound '@' s l rest hat
        obtain ⟨hs2, _⟩ := splitLastAt_sound '.' rest d t hdot
        refine ⟨l, d, t, by rw [hs1, hs2], ?_, hl, ?_, hd, ht2, ht⟩
        · intro hc
          rw [hc] at hl0
          cases hl0
        · intro hc
          rw [hc] at hd0
          cases hd0
  · rintro ⟨l, d, t, rfl, hl0, hl, hd0, hd, ht2, ht⟩
    unfold emailCheck
    have h1 : splitFirstAt '@' (l ++ '@' :: (d ++ '.' :: t)) =
        some (l, d ++ '.' :: t) :=
      splitFirstAt_eq _ _ _ (fun x hx hc => by
        have h2 := List.all_eq_true.mp hl x hx
        rw [hc] at h2
        exact absurd h2 (by decide))
    rw [h1]
    dsimp only
    have h2 : splitLastAt '.' (d ++ '.' :: t) = some (d, t) :=
      splitLastAt_eq _ _ _ (fun x hx hc => by
        have h3 := List.all_eq_true.mp ht x hx
        rw [hc] at h3
        exact absurd h3 (by decide))
    rw [h2]
    dsimp only
    have hl0b : l.isEmpty = false := by
      rcases l with _ | _
      · exact absurd rfl hl0
      · rfl
    have hd0b : d.isEmpty = false := by
      rcases d with _ | _
      · exact absurd rfl hd0
      · rfl
    simp [hl0b, hd0b, hl, hd, ht2, ht]

/-- `re.search` with the anchored pattern accepts exactly a decomposing
string, or one decomposing after dropping a single trailing newline
(the `$` anchor also matches just before a trailing newline). -/
theorem pyEmailAccepts_iff (s : List Char) :
    pyEmailAccepts s = true ↔
      (emailShape s ∨
        (s.getLast? = some '\x0a' ∧ emailShape s.dropLast)) := by
  unfold pyEmailAccepts
  rw [Bool.or_eq_true]
  constructor
  · rintro (h | h)
    · exact Or.inl ((emailCheck_iff s).mp h)
    · rcases hgl : s.getLast? with _ | c <;> rw [hgl] at h
      · cases h
      · simp only [Bool.and_eq_true, decide_eq_true_eq] at h
        exact Or.inr ⟨congrArg some h.1, (emailCheck_iff _).mp h.2⟩
  · rintro (h | ⟨hgl, h⟩)
    · exact Or.inl ((emailCheck_iff s).mpr h)
    · refine Or.inr ?_
      rw [hgl]
      simp [(emailCheck_iff _).mpr h]

/-- Claim C5 (amended): `Email` construction succeeds exactly when the
string — or, because `$` also matches before one trailing newline, the
string with a single trailing newline removed — decomposes as
`local@domain.tld` with a non-empty local part over letters, digits,
dot and underscore, a non-empty domain over letters, digits, dot and
hyphen, a dot, and a TLD of two or more letters; every other string is
rejected with the `ValueError`.  In particular "a.b@x.co" succeeds and
"a@b" fails. -/
theorem email_c5 (s : List Char) :
    (emailNew s = .ok s ↔
      (emailShape s ∨
        (s.getLast? = some '\x0a' ∧ emailShape s.dropLast))) ∧
    (emailNew s = .error emailErr ↔
      ¬ (emailShape s ∨
        (s.getLast? = some '\x0a' ∧ emailShape s.dropLast))) ∧
    emailNew (("a.b@x.co").toList) = .ok (("a.b@x.co").toList) ∧
    emailNew (("a@b").toList) = .error emailErr := by
  have hb := pyEmailAccepts_iff s
  refine ⟨?_, ?_, by decide, by decide⟩
  · unfold emailNew
    by_cases h : pyEmailAccepts s = true
    · rw [if_pos h]
      exact iff_of_true rfl (hb.mp h)
    · rw [if_neg h]
      refine iff_of_false (by simp) (fun hc => h (hb.mpr hc))
  · unfold emailNew
    by_cases h : pyEmailAccepts s = true
    · rw [if_pos h]
      refine iff_of_false (by simp) (fun hc => hc (hb.mp h))
    · rw [if_neg h]
      exact iff_of_true rfl (fun hc => h (hb.mpr hc))

/-- Counterexample to claim C5 as stated: the string "a.b@x.co" followed
by a newline is accepted by the `Email` validator (Python's `$` matches
before a trailing newline), although the string itself does not
decompose as `local@domain.tld` — `emailCheck`, which by
`emailCheck_iff` decides that decomposition, rejects it. -/
theorem email_c5_cex :
    pyEmailAccepts (("a.b@x.co\n").toList) = true ∧
    emailCheck (("a.b@x.co\n").toList) = false := by
  constructor
  · decide
  · decide

end CBA
